import Mathlib

/-!
Shallow embedding of `StableHashMap` (src/src/lib.rs), an insertion-order
preserving associative container.  The Rust type stores a
`HashMap<usize, V>` keyed by the slot number of each entry together with a
`Vec<K>` of the keys in insertion order.

The Rust code uses the standard `HashMap` only through point accesses
(`insert`, `remove`, `get`, `get_key_value`, `get_mut`, `len`, and
collecting from an iterator of pairs); it never iterates over the map.
We therefore model the hash map as an association list `List (Nat × V)`
with update-in-place insertion, first-occurrence removal and lookup, which
is observationally equivalent for exactly those operations (the number of
entries is the list length, as the keys stay pairwise distinct).
-/

namespace StableSpec

variable {K V : Type}

/-- Model of `HashMap::get`: value stored under key `k`, if any. -/
def hmGet (k : Nat) : List (Nat × V) → Option V
  | [] => none
  | (k', v) :: rest => if k = k' then some v else hmGet k rest

/-- Model of `HashMap::get_key_value`: the stored entry under key `k`. -/
def hmGetKeyValue (k : Nat) : List (Nat × V) → Option (Nat × V)
  | [] => none
  | (k', v) :: rest => if k = k' then some (k', v) else hmGetKeyValue k rest

/-- Model of `HashMap::insert`: update the binding of `k` in place, or add
a new binding when `k` is absent. -/
def hmInsert (k : Nat) (v : V) : List (Nat × V) → List (Nat × V)
  | [] => [(k, v)]
  | (k', v') :: rest =>
      if k = k' then (k, v) :: rest else (k', v') :: hmInsert k v rest

/-- Model of the state change of `HashMap::remove`: drop the binding of
`k` (a no-op when `k` is absent).  The value `remove` returns is
`hmGet k` of the map before the removal. -/
def hmErase (k : Nat) : List (Nat × V) → List (Nat × V)
  | [] => []
  | (k', v') :: rest => if k = k' then rest else (k', v') :: hmErase k rest

/-- Model of `HashMap::from_iter` (the `collect` in the `From` impls):
fold `insert` over the pairs. -/
def hmFromList (l : List (Nat × V)) : List (Nat × V) :=
  l.foldl (fun h p => hmInsert p.1 p.2 h) []

/-- Model of `Iterator::position` on a list (used by `get_by_key` and
`get_mut_by_key`): index of the first element satisfying `p`. -/
def position (p : K → Bool) : List K → Option Nat
  | [] => none
  | k :: rest => if p k then some 0 else (position p rest).map (· + 1)

/-- The container itself: `hashmap: HashMap<usize, V>` keyed by slot
number, `key_vec: Vec<K>` in insertion order (src/src/lib.rs lines 6-13). -/
structure StableHashMap (K V : Type) where
  hashmap : List (Nat × V)
  key_vec : List K
  deriving Repr, DecidableEq

namespace StableHashMap

/-- `StableHashMap::new` (also `default`, `with_capacity`,
`with_hasher`, `with_capacity_and_hasher`: capacity and hasher are
performance hints with no observable effect in the model). -/
def new : StableHashMap K V := ⟨[], []⟩

/-- `StableHashMap::push`: insert the value under the current length and
append the key. -/
def push (m : StableHashMap K V) (key : K) (value : V) : StableHashMap K V :=
  { hashmap := hmInsert m.key_vec.length value m.hashmap
    key_vec := m.key_vec ++ [key] }

/-- `StableHashMap::pop`: pop the last key off `key_vec`; if one existed,
remove the map entry at the new length and pair it with the key.
Returns the Rust return value together with the post-state of `self`. -/
def pop (m : StableHashMap K V) : Option (K × V) × StableHashMap K V :=
  match m.key_vec.getLast? with
  | some key =>
      ((hmGet m.key_vec.dropLast.length m.hashmap).map fun val => (key, val),
       { hashmap := hmErase m.key_vec.dropLast.length m.hashmap
         key_vec := m.key_vec.dropLast })
  | none => (none, m)

/-- `StableHashMap::get`: the `(key, value)` pair at slot `idx`. -/
def get (m : StableHashMap K V) (idx : Nat) : Option (K × V) :=
  (m.key_vec.get? idx).bind fun key =>
    (hmGetKeyValue idx m.hashmap).map fun kv => (key, kv.2)

/-- Observable effect of `StableHashMap::get_mut(idx)` followed by a write
of `newVal` through the returned value handle: when `get_mut` returns
`Some` (both the slot and the map entry exist), the map entry at `idx` is
overwritten; otherwise no handle exists and the state is unchanged. -/
def get_mut_write (m : StableHashMap K V) (idx : Nat) (newVal : V) :
    StableHashMap K V :=
  match m.key_vec.get? idx with
  | none => m
  | some _ =>
      match hmGet idx m.hashmap with
      | none => m
      | some _ => { m with hashmap := hmInsert idx newVal m.hashmap }

/-- `StableHashMap::get_by_key`: position of the first matching key in
`key_vec`, then the map entry at that slot. -/
def get_by_key [DecidableEq K] (m : StableHashMap K V) (key : K) :
    Option V :=
  match position (fun k => decide (k = key)) m.key_vec with
  | some idx => hmGet idx m.hashmap
  | none => none

/-- Observable effect of `StableHashMap::get_mut_by_key(key)` followed by
a write of `newVal` through the returned handle. -/
def get_mut_by_key_write [DecidableEq K] (m : StableHashMap K V) (key : K)
    (newVal : V) : StableHashMap K V :=
  match position (fun k => decide (k = key)) m.key_vec with
  | some idx =>
      match hmGet idx m.hashmap with
      | some _ => { m with hashmap := hmInsert idx newVal m.hashmap }
      | none => m
  | none => m

/-- `From<&[(K, V)]>::from`: keys by mapping `fst`, map by collecting the
enumerated values. -/
def from_slice (tuples : List (K × V)) : StableHashMap K V :=
  { key_vec := tuples.map Prod.fst
    hashmap := hmFromList (tuples.enum.map fun p => (p.1, p.2.2)) }

/-- `From<Vec<(K, V)>>::from`: same construction from an owned vector. -/
def from_vec (tuples : List (K × V)) : StableHashMap K V :=
  { key_vec := tuples.map Prod.fst
    hashmap := hmFromList (tuples.enum.map fun p => (p.1, p.2.2)) }

/-- A sequence of `push` calls, in order. -/
def push_list (m : StableHashMap K V) (ps : List (K × V)) :
    StableHashMap K V :=
  ps.foldl (fun acc p => acc.push p.1 p.2) m

end StableHashMap

/-- `StableHashMapIntoIterator`: the consuming iterator state
(src/src/lib.rs lines 111-118). -/
structure StableHashMapIntoIterator (K V : Type) where
  stable_map : StableHashMap K V
  index : Nat

namespace StableHashMapIntoIterator

/-- `Iterator::next` for `StableHashMapIntoIterator`: look up the key at
`index` and the map entry at `index`, clone them into a pair, and bump
`index` unconditionally. -/
def next (it : StableHashMapIntoIterator K V) :
    Option (K × V) × StableHashMapIntoIterator K V :=
  ((it.stable_map.key_vec.get? it.index).bind fun key =>
      (hmGet it.index it.stable_map.hashmap).map fun value => (key, value),
   { it with index := it.index + 1 })

end StableHashMapIntoIterator

namespace StableHashMap

/-- `IntoIterator::into_iter`: wrap the container with index 0. -/
def into_iter (m : StableHashMap K V) : StableHashMapIntoIterator K V :=
  ⟨m, 0⟩

/-- Drive the iterator like a Rust `for` loop: keep calling `next`,
collecting yielded pairs, stopping at the first `None` (or when the fuel
runs out). -/
def collect : Nat → StableHashMapIntoIterator K V → List (K × V)
  | 0, _ => []
  | fuel + 1, it =>
      match StableHashMapIntoIterator.next it with
      | (some p, it') => p :: collect fuel it'
      | (none, _) => []

/-- All pairs the consuming iterator yields, in order.  Fuel
`key_vec.length + 1` is enough: past the key vector, `next` always
returns `None`. -/
def into_list (m : StableHashMap K V) : List (K × V) :=
  collect (m.key_vec.length + 1) (into_iter m)

/-- The iterator state after `j` calls to `next`. -/
def iter_steps (it : StableHashMapIntoIterator K V) :
    Nat → StableHashMapIntoIterator K V
  | 0 => it
  | j + 1 => (StableHashMapIntoIterator.next (iter_steps it j)).2

/-- The consistency invariant maintained by the container: the keys of
the hash map are exactly the slot numbers `0 .. key_vec.length - 1`
(hence, as they are pairwise distinct, the map has exactly
`key_vec.length` entries). -/
def WF (m : StableHashMap K V) : Prop :=
  List.Perm (m.hashmap.map Prod.fst) (List.range m.key_vec.length)

instance [DecidableEq K] (m : StableHashMap K V) : Decidable m.WF := by
  unfold WF; infer_instance

end StableHashMap

/-! ### Lemmas about the hash-map model -/

theorem hmGet_isSome_iff_mem (k : Nat) (h : List (Nat × V)) :
    (hmGet k h).isSome ↔ k ∈ h.map Prod.fst := by
  induction h with
  | nil => simp [hmGet]
  | cons p rest ih =>
      obtain ⟨k', v⟩ := p
      by_cases hk : k = k' <;> simp [hmGet, hk, ih]

theorem hmGet_insert_self (k : Nat) (v : V) (h : List (Nat × V)) :
    hmGet k (hmInsert k v h) = some v := by
  induction h with
  | nil => simp [hmGet, hmInsert]
  | cons p rest ih =>
      obtain ⟨k', v'⟩ := p
      by_cases hk : k = k' <;> simp [hmGet, hmInsert, hk, ih]

theorem hmGet_insert_ne {k j : Nat} (hkj : k ≠ j) (v : V)
    (h : List (Nat × V)) : hmGet k (hmInsert j v h) = hmGet k h := by
  induction h with
  | nil => simp [hmGet, hmInsert, hkj]
  | cons p rest ih =>
      obtain ⟨k', v'⟩ := p
      by_cases hj : j = k'
      · subst hj; simp [hmGet, hmInsert, hkj]
      · by_cases hk : k = k' <;> simp [hmGet, hmInsert, hj, hk, ih]

theorem hmGetKeyValue_eq (k : Nat) (h : List (Nat × V)) :
    hmGetKeyValue k h = (hmGet k h).map fun v => (k, v) := by
  induction h with
  | nil => simp [hmGet, hmGetKeyValue]
  | cons p rest ih =>
      obtain ⟨k', v⟩ := p
      by_cases hk : k = k'
      · subst hk; simp [hmGet, hmGetKeyValue]
      · simp [hmGet, hmGetKeyValue, hk, ih]

theorem hmInsert_absent {k : Nat} {h : List (Nat × V)}
    (hk : k ∉ h.map Prod.fst) (v : V) : hmInsert k v h = h ++ [(k, v)] := by
  induction h with
  | nil => simp [hmInsert]
  | cons p rest ih =>
      obtain ⟨k', v'⟩ := p
      simp only [List.map_cons, List.mem_cons] at hk
      push_neg at hk
      simp [hmInsert, hk.1, ih hk.2]

theorem map_fst_hmInsert_mem {k : Nat} {h : List (Nat × V)}
    (hk : k ∈ h.map Prod.fst) (v : V) :
    (hmInsert k v h).map Prod.fst = h.map Prod.fst := by
  induction h with
  | nil => simp at hk
  | cons p rest ih =>
      obtain ⟨k', v'⟩ := p
      by_cases hkk : k = k'
      · subst hkk; simp [hmInsert]
      · simp only [List.map_cons, List.mem_cons] at hk
        rcases hk with hk | hk
        · exact absurd hk hkk
        · simp [hmInsert, hkk, ih hk]

theorem hmErase_insert_absent {k : Nat} {h : List (Nat × V)}
    (hk : k ∉ h.map Prod.fst) (v : V) : hmErase k (hmInsert k v h) = h := by
  induction h with
  | nil => simp [hmInsert, hmErase]
  | cons p rest ih =>
      obtain ⟨k', v'⟩ := p
      simp only [List.map_cons, List.mem_cons] at hk
      push_neg at hk
      simp [hmInsert, hmErase, hk.1, ih hk.2]

theorem map_fst_hmErase (k : Nat) (h : List (Nat × V)) :
    (hmErase k h).map Prod.fst = (h.map Prod.fst).erase k := by
  induction h with
  | nil => simp [hmErase]
  | cons p rest ih =>
      obtain ⟨k', v'⟩ := p
      by_cases hk : k = k'
      · subst hk; simp [hmErase, List.erase_cons_head]
      · have : ¬ (k' == k) = true := by simp [Ne.symm hk]
        simp [hmErase, hk, List.erase_cons, this, ih]

theorem hmGet_enumFrom (ps : List (K × V)) :
    ∀ j k, hmGet k ((List.enumFrom j ps).map fun p => (p.1, p.2.2)) =
      if k < j then none else (ps.get? (k - j)).map Prod.snd := by
  induction ps with
  | nil => intro j k; simp [hmGet]
  | cons p rest ih =>
      intro j k
      obtain ⟨pk, pv⟩ := p
      by_cases hk : k = j
      · subst hk
        simp [List.enumFrom, hmGet]
      · have h1 : ¬ (k < j) ∨ k < j := (em (k < j)).symm
        simp only [List.enumFrom, List.map_cons, hmGet, hk, if_false]
        rw [ih (j + 1) k]
        rcases Nat.lt_or_ge k j with hlt | hge
        · have : k < j + 1 := Nat.lt_succ_of_lt hlt
          simp [hlt, this]
        · have hgt : j < k := Nat.lt_of_le_of_ne hge (Ne.symm hk)
          have h2 : ¬ (k < j + 1) := by omega
          have h3 : ¬ (k < j) := by omega
          simp only [h2, if_false, h3]
          have h4 : k - j = (k - (j + 1)) + 1 := by omega
          rw [h4, List.get?_cons_succ]

theorem hmFromList_pending (l : List (Nat × V)) :
    ∀ h : List (Nat × V), (∀ k ∈ l.map Prod.fst, k ∉ h.map Prod.fst) →
      (l.map Prod.fst).Nodup →
      l.foldl (fun acc p => hmInsert p.1 p.2 acc) h = h ++ l := by
  induction l with
  | nil => intro h _ _; simp
  | cons p rest ih =>
      intro h hdisj hnodup
      obtain ⟨k, v⟩ := p
      simp only [List.map_cons, List.nodup_cons] at hnodup
      have hkh : k ∉ h.map Prod.fst := by
        exact hdisj k (by simp)
      simp only [List.foldl_cons]
      rw [hmInsert_absent hkh v]
      rw [ih (h ++ [(k, v)]) ?disj hnodup.2]
      · simp
      case disj =>
        intro k' hk'
        simp only [List.map_append, List.mem_append, List.map_cons,
          List.mem_singleton, List.map_nil]
        push_neg
        constructor
        · exact hdisj k' (by simp [hk'])
        · intro heq
          exact hnodup.1 (heq ▸ hk')

theorem hmFromList_nodup {l : List (Nat × V)}
    (hnodup : (l.map Prod.fst).Nodup) : hmFromList l = l := by
  have := hmFromList_pending l [] (by simp) hnodup
  simpa [hmFromList] using this

theorem range_erase_last (n : Nat) :
    (List.range (n + 1)).erase n = List.range n := by
  rw [List.range_succ, List.erase_append_right _ (by simp),
    List.erase_cons_head, List.append_nil]

/-! ### The canonical state reached by a sequence of pushes -/

namespace StableHashMap

/-- The state a container is in after pushing the pairs `ps` in order
starting from `new`: keys in order in `key_vec`, the `i`-th value stored
under key `i` in `hashmap`. -/
def canonical (ps : List (K × V)) : StableHashMap K V :=
  ⟨ps.enum.map fun p => (p.1, p.2.2), ps.map Prod.fst⟩

theorem eq_of_parts {m₁ m₂ : StableHashMap K V}
    (h1 : m₁.hashmap = m₂.hashmap) (h2 : m₁.key_vec = m₂.key_vec) :
    m₁ = m₂ := by
  cases m₁; cases m₂; simp_all

theorem WF_iff (m : StableHashMap K V) :
    m.WF ↔ List.Perm (m.hashmap.map Prod.fst)
      (List.range m.key_vec.length) := Iff.rfl

theorem push_hashmap (m : StableHashMap K V) (k : K) (v : V) :
    (m.push k v).hashmap = hmInsert m.key_vec.length v m.hashmap := rfl

theorem push_key_vec (m : StableHashMap K V) (k : K) (v : V) :
    (m.push k v).key_vec = m.key_vec ++ [k] := rfl

theorem canonical_hashmap (ps : List (K × V)) :
    (canonical ps).hashmap = ps.enum.map fun p => (p.1, p.2.2) := rfl

theorem canonical_key_vec (ps : List (K × V)) :
    (canonical ps).key_vec = ps.map Prod.fst := rfl

theorem canonical_map_fst (ps : List (K × V)) :
    (canonical ps).hashmap.map Prod.fst = List.range ps.length := by
  rw [canonical_hashmap, List.map_map]
  have hcomp : (Prod.fst ∘ fun p : Nat × (K × V) => (p.1, p.2.2)) =
      Prod.fst := rfl
  rw [hcomp, List.enum_map_fst]

theorem hmGet_canonical (ps : List (K × V)) (k : Nat) :
    hmGet k (canonical ps).hashmap = (ps.get? k).map Prod.snd := by
  have h := hmGet_enumFrom ps 0 k
  have henum : ps.enum = List.enumFrom 0 ps := rfl
  simp only [canonical, henum]
  simpa using h

theorem push_canonical (ps : List (K × V)) (k : K) (v : V) :
    (canonical ps).push k v = canonical (ps ++ [(k, v)]) := by
  have hlen : (canonical ps).key_vec.length = ps.length := by
    rw [canonical_key_vec, List.length_map]
  have habs : ps.length ∉ (canonical ps).hashmap.map Prod.fst := by
    rw [canonical_map_fst]; simp
  apply eq_of_parts
  · rw [push_hashmap, hlen, hmInsert_absent habs v, canonical_hashmap,
      canonical_hashmap, List.enum_append]
    simp [List.enumFrom]
  · rw [push_key_vec, canonical_key_vec, canonical_key_vec]
    simp

theorem push_list_append_single (m : StableHashMap K V)
    (ps : List (K × V)) (p : K × V) :
    push_list m (ps ++ [p]) = (push_list m ps).push p.1 p.2 := by
  simp [push_list, List.foldl_append]

theorem push_list_eq_canonical (ps : List (K × V)) :
    push_list (new : StableHashMap K V) ps = canonical ps := by
  induction ps using List.reverseRecOn with
  | nil => rfl
  | append_singleton qs p ih =>
      obtain ⟨k, v⟩ := p
      rw [push_list_append_single, ih, push_canonical]

theorem from_slice_eq_canonical (ps : List (K × V)) :
    from_slice ps = canonical ps := by
  have hmapfst : (List.map Prod.fst
      (ps.enum.map fun p => (p.1, p.2.2))) = List.range ps.length :=
    canonical_map_fst ps
  have hnodup : ((ps.enum.map fun p => (p.1, p.2.2)).map Prod.fst).Nodup := by
    rw [hmapfst]; exact List.nodup_range _
  apply eq_of_parts
  · show hmFromList (ps.enum.map fun p => (p.1, p.2.2)) =
      (canonical ps).hashmap
    rw [hmFromList_nodup hnodup, canonical_hashmap]
  · rfl

theorem from_vec_eq_canonical (ps : List (K × V)) :
    from_vec ps = canonical ps := from_slice_eq_canonical ps

/-! ### Well-formedness: consequences and preservation -/

theorem WF.perm {m : StableHashMap K V} (hwf : m.WF) :
    List.Perm (m.hashmap.map Prod.fst)
      (List.range m.key_vec.length) := hwf

theorem WF.mem_iff {m : StableHashMap K V} (hwf : m.WF) (k : Nat) :
    k ∈ m.hashmap.map Prod.fst ↔ k < m.key_vec.length := by
  rw [hwf.perm.mem_iff, List.mem_range]

theorem WF.hmGet_isSome {m : StableHashMap K V} (hwf : m.WF) (k : Nat) :
    (hmGet k m.hashmap).isSome ↔ k < m.key_vec.length := by
  rw [hmGet_isSome_iff_mem, hwf.mem_iff k]

theorem WF.size_eq {m : StableHashMap K V} (hwf : m.WF) :
    m.hashmap.length = m.key_vec.length := by
  have h := hwf.perm.length_eq
  simpa using h

theorem WF_new : (new : StableHashMap K V).WF := by
  simp [WF, new]

theorem WF_canonical (ps : List (K × V)) : (canonical ps).WF := by
  rw [WF, canonical_map_fst]
  simp [canonical]

theorem WF.push {m : StableHashMap K V} (hwf : m.WF) (k : K) (v : V) :
    (m.push k v).WF := by
  have habs : m.key_vec.length ∉ m.hashmap.map Prod.fst := by
    rw [hwf.mem_iff]; omega
  rw [WF_iff, push_hashmap, push_key_vec, hmInsert_absent habs v]
  simp only [List.map_append, List.map_cons, List.map_nil,
    List.length_append, List.length_cons, List.length_nil, Nat.add_zero,
    List.range_succ]
  exact hwf.perm.append (List.Perm.refl _)

theorem pop_spec (m : StableHashMap K V) :
    m.pop = match m.key_vec.getLast? with
      | some key =>
          ((hmGet m.key_vec.dropLast.length m.hashmap).map
              fun val => (key, val),
           ⟨hmErase m.key_vec.dropLast.length m.hashmap,
            m.key_vec.dropLast⟩)
      | none => (none, m) := rfl

theorem WF.pop {m : StableHashMap K V} (hwf : m.WF) : (m.pop).2.WF := by
  rw [pop_spec]
  cases hlast : m.key_vec.getLast? with
  | none => exact hwf
  | some key =>
      have hne : m.key_vec ≠ [] := by
        intro h; rw [h] at hlast; simp at hlast
      have hpos : 0 < m.key_vec.length := List.length_pos.mpr hne
      rw [WF_iff]
      show ((hmErase m.key_vec.dropLast.length m.hashmap).map Prod.fst).Perm
        (List.range m.key_vec.dropLast.length)
      rw [map_fst_hmErase, List.length_dropLast]
      obtain ⟨n, hlen⟩ : ∃ n, m.key_vec.length = n + 1 :=
        ⟨m.key_vec.length - 1, by omega⟩
      have hperm := hwf.perm.erase n
      rw [hlen, range_erase_last] at hperm
      rw [hlen]
      simpa using hperm

theorem get_mut_write_spec (m : StableHashMap K V) (idx : Nat)
    (newVal : V) :
    m.get_mut_write idx newVal = match m.key_vec.get? idx with
      | none => m
      | some _ =>
          match hmGet idx m.hashmap with
          | none => m
          | some _ =>
              { m with hashmap := hmInsert idx newVal m.hashmap } := rfl

theorem get_mut_by_key_write_spec [DecidableEq K] (m : StableHashMap K V)
    (key : K) (newVal : V) :
    m.get_mut_by_key_write key newVal =
      match position (fun k => decide (k = key)) m.key_vec with
      | some idx =>
          match hmGet idx m.hashmap with
          | some _ =>
              { m with hashmap := hmInsert idx newVal m.hashmap }
          | none => m
      | none => m := rfl

theorem WF.get_mut_write {m : StableHashMap K V} (hwf : m.WF) (idx : Nat)
    (v : V) : (m.get_mut_write idx v).WF := by
  rw [get_mut_write_spec]
  cases hkv : m.key_vec.get? idx with
  | none => exact hwf
  | some k =>
      cases hget : hmGet idx m.hashmap with
      | none => exact hwf
      | some oldv =>
          have hmem : idx ∈ m.hashmap.map Prod.fst := by
            rw [← hmGet_isSome_iff_mem, hget]; rfl
          rw [WF_iff]
          show ((hmInsert idx v m.hashmap).map Prod.fst).Perm
            (List.range m.key_vec.length)
          rw [map_fst_hmInsert_mem hmem v]
          exact hwf.perm

theorem get_mut_by_key_write_of_none [DecidableEq K]
    {m : StableHashMap K V} {key : K}
    (hpos : position (fun k => decide (k = key)) m.key_vec = none)
    (v : V) : m.get_mut_by_key_write key v = m := by
  rw [get_mut_by_key_write_spec, hpos]

theorem get_mut_by_key_write_of_some [DecidableEq K]
    {m : StableHashMap K V} {key : K} {idx : Nat}
    (hpos : position (fun k => decide (k = key)) m.key_vec = some idx)
    (v : V) :
    m.get_mut_by_key_write key v = match hmGet idx m.hashmap with
      | some _ => { m with hashmap := hmInsert idx v m.hashmap }
      | none => m := by
  rw [get_mut_by_key_write_spec, hpos]

theorem WF.get_mut_by_key_write [DecidableEq K] {m : StableHashMap K V}
    (hwf : m.WF) (key : K) (v : V) :
    (m.get_mut_by_key_write key v).WF := by
  cases hpos : position (fun k => decide (k = key)) m.key_vec with
  | none => rw [get_mut_by_key_write_of_none hpos v]; exact hwf
  | some idx =>
      rw [get_mut_by_key_write_of_some hpos v]
      cases hget : hmGet idx m.hashmap with
      | none => exact hwf
      | some oldv =>
          have hmem : idx ∈ m.hashmap.map Prod.fst := by
            rw [← hmGet_isSome_iff_mem, hget]; rfl
          rw [WF_iff]
          show ((hmInsert idx v m.hashmap).map Prod.fst).Perm
            (List.range m.key_vec.length)
          rw [map_fst_hmInsert_mem hmem v]
          exact hwf.perm

theorem WF_from_slice (ps : List (K × V)) : (from_slice ps).WF := by
  rw [from_slice_eq_canonical]; exact WF_canonical ps

theorem WF_from_vec (ps : List (K × V)) : (from_vec ps).WF := by
  rw [from_vec_eq_canonical]; exact WF_canonical ps

end StableHashMap

theorem get?_isSome_iff {α : Type} (l : List α) (n : Nat) :
    (l.get? n).isSome ↔ n < l.length := by
  constructor
  · intro h
    by_contra hn
    rw [List.get?_eq_none.mpr (by omega)] at h
    simp at h
  · intro h
    rw [List.get?_eq_getElem?, List.getElem?_eq_getElem h]
    rfl

/-! ### Lemmas about the consuming iterator -/

namespace StableHashMap

theorem next_canonical (ps : List (K × V)) (i : Nat) :
    StableHashMapIntoIterator.next ⟨canonical ps, i⟩ =
      (ps.get? i, ⟨canonical ps, i + 1⟩) := by
  show ((((canonical ps).key_vec.get? i).bind fun key =>
      (hmGet i (canonical ps).hashmap).map fun value => (key, value)),
    (⟨canonical ps, i + 1⟩ : StableHashMapIntoIterator K V)) = _
  rw [canonical_key_vec, List.get?_map, hmGet_canonical]
  cases hp : ps.get? i with
  | none => rfl
  | some p => rfl

theorem collect_succ (fuel : Nat) (it : StableHashMapIntoIterator K V) :
    collect (fuel + 1) it = match StableHashMapIntoIterator.next it with
      | (some p, it') => p :: collect fuel it'
      | (none, _) => [] := rfl

theorem collect_canonical (fuel : Nat) :
    ∀ (ps : List (K × V)) (i : Nat), ps.length - i < fuel →
      collect fuel ⟨canonical ps, i⟩ = ps.drop i := by
  induction fuel with
  | zero => intro ps i h; omega
  | succ fuel ih =>
      intro ps i h
      rw [collect_succ, next_canonical]
      cases hp : ps.get? i with
      | none =>
          have hlen : ps.length ≤ i := by
            by_contra hn
            rw [List.get?_eq_getElem?, List.getElem?_eq_getElem
              (by omega)] at hp
            exact Option.noConfusion hp
          exact (List.drop_eq_nil_of_le hlen).symm
      | some p =>
          have hlt : i < ps.length := by
            by_contra hn
            rw [List.get?_eq_none.mpr (by omega)] at hp
            exact Option.noConfusion hp
          have hrec := ih ps (i + 1) (by omega)
          show p :: collect fuel ⟨canonical ps, i + 1⟩ = ps.drop i
          rw [hrec, List.drop_eq_getElem_cons hlt]
          rw [List.get?_eq_getElem?, List.getElem?_eq_getElem hlt] at hp
          have : ps[i] = p := Option.some.inj hp
          rw [this]

theorem into_list_canonical (ps : List (K × V)) :
    into_list (canonical ps) = ps := by
  have hlen : (canonical ps).key_vec.length = ps.length := by
    rw [canonical_key_vec, List.length_map]
  show collect ((canonical ps).key_vec.length + 1) ⟨canonical ps, 0⟩ = ps
  rw [hlen, collect_canonical (ps.length + 1) ps 0 (by omega)]
  exact List.drop_zero ps

theorem iter_steps_into_iter (m : StableHashMap K V) (j : Nat) :
    iter_steps (into_iter m) j = ⟨m, j⟩ := by
  induction j with
  | zero => rfl
  | succ j ih =>
      show (StableHashMapIntoIterator.next (iter_steps (into_iter m) j)).2 = _
      rw [ih]
      rfl

theorem next_isSome_iff {m : StableHashMap K V} (hwf : m.WF) (j : Nat) :
    ((StableHashMapIntoIterator.next ⟨m, j⟩).1).isSome ↔
      j < m.key_vec.length := by
  show ((m.key_vec.get? j).bind fun key =>
      (hmGet j m.hashmap).map fun value => (key, value)).isSome ↔ _
  constructor
  · intro h
    cases hk : m.key_vec.get? j with
    | none => rw [hk] at h; simp at h
    | some key =>
        exact (get?_isSome_iff m.key_vec j).mp (by rw [hk]; rfl)
  · intro h
    have hk : (m.key_vec.get? j).isSome :=
      (get?_isSome_iff m.key_vec j).mpr h
    have hg : (hmGet j m.hashmap).isSome := (hwf.hmGet_isSome j).mpr h
    obtain ⟨key, hkey⟩ := Option.isSome_iff_exists.mp hk
    obtain ⟨v, hv⟩ := Option.isSome_iff_exists.mp hg
    rw [hkey, hv]
    rfl

/-! ### Lemmas about `get`, `get_by_key` and `get_mut_write` -/

theorem get_canonical (ps : List (K × V)) (i : Nat) :
    (canonical ps).get i = ps.get? i := by
  show ((canonical ps).key_vec.get? i).bind (fun key =>
    (hmGetKeyValue i (canonical ps).hashmap).map fun kv => (key, kv.2)) = _
  rw [canonical_key_vec, List.get?_map, hmGetKeyValue_eq, hmGet_canonical]
  cases hp : ps.get? i with
  | none => rfl
  | some p => rfl

theorem get_by_key_spec [DecidableEq K] (m : StableHashMap K V) (key : K) :
    m.get_by_key key =
      match position (fun k => decide (k = key)) m.key_vec with
      | some idx => hmGet idx m.hashmap
      | none => none := rfl

theorem get_by_key_eq_bind [DecidableEq K] (m : StableHashMap K V)
    (key : K) :
    m.get_by_key key = (position (fun k => decide (k = key))
      m.key_vec).bind fun idx => hmGet idx m.hashmap := by
  rw [get_by_key_spec]
  cases hp : position (fun k => decide (k = key)) m.key_vec with
  | none => rfl
  | some idx => rfl

theorem position_find [DecidableEq K] (key : K) :
    ∀ ps : List (K × V),
      ((position (fun k => decide (k = key)) (ps.map Prod.fst)).bind
        fun idx => (ps.get? idx).map Prod.snd) =
      (ps.find? fun p => decide (p.1 = key)).map Prod.snd := by
  intro ps
  induction ps with
  | nil => rfl
  | cons p rest ih =>
      obtain ⟨a, b⟩ := p
      by_cases ha : a = key
      · simp [position, ha, List.find?_cons_of_pos]
      · have hfind : ((a, b) :: rest).find?
            (fun p => decide (p.1 = key)) = rest.find?
            (fun p => decide (p.1 = key)) :=
          List.find?_cons_of_neg _ (by simp [ha])
        rw [hfind, ← ih]
        show ((if decide (a = key) = true then some 0
          else (position (fun k => decide (k = key))
            (rest.map Prod.fst)).map (· + 1)).bind
          fun idx => (((a, b) :: rest).get? idx).map Prod.snd) = _
        rw [if_neg (by simp [ha])]
        cases hp : position (fun k => decide (k = key))
            (rest.map Prod.fst) with
        | none => rfl
        | some i => rfl

theorem get_by_key_canonical [DecidableEq K] (ps : List (K × V))
    (key : K) :
    (canonical ps).get_by_key key =
      (ps.find? fun p => decide (p.1 = key)).map Prod.snd := by
  rw [get_by_key_eq_bind, canonical_key_vec, ← position_find key ps]
  cases hp : position (fun k => decide (k = key)) (ps.map Prod.fst) with
  | none => rfl
  | some idx => rw [Option.some_bind, Option.some_bind, hmGet_canonical]

/-! ### Push/pop interaction and mutation lemmas -/

theorem pop_push {m : StableHashMap K V} (hwf : m.WF) (k : K) (v : V) :
    (m.push k v).pop = (some (k, v), m) := by
  have habs : m.key_vec.length ∉ m.hashmap.map Prod.fst := by
    rw [hwf.mem_iff]; omega
  rw [pop_spec, push_key_vec, push_hashmap, List.getLast?_concat,
    List.dropLast_concat]
  show ((hmGet m.key_vec.length
      (hmInsert m.key_vec.length v m.hashmap)).map fun val => (k, val),
    (⟨hmErase m.key_vec.length
      (hmInsert m.key_vec.length v m.hashmap), m.key_vec⟩ :
        StableHashMap K V)) = (some (k, v), m)
  rw [hmGet_insert_self, hmErase_insert_absent habs v]
  rfl

theorem pop_nonempty {m : StableHashMap K V} (hwf : m.WF)
    (hne : m.key_vec ≠ []) :
    ∃ k v, m.key_vec.getLast? = some k ∧
      hmGet (m.key_vec.length - 1) m.hashmap = some v ∧
      m.pop = (some (k, v),
        ⟨hmErase (m.key_vec.length - 1) m.hashmap,
         m.key_vec.dropLast⟩) := by
  have hpos : 0 < m.key_vec.length := List.length_pos.mpr hne
  have hlast : m.key_vec.getLast? = some (m.key_vec.getLast hne) :=
    List.getLast?_eq_getLast m.key_vec hne
  have hget : (hmGet (m.key_vec.length - 1) m.hashmap).isSome :=
    (hwf.hmGet_isSome _).mpr (by omega)
  obtain ⟨v, hv⟩ := Option.isSome_iff_exists.mp hget
  refine ⟨m.key_vec.getLast hne, v, hlast, hv, ?_⟩
  rw [pop_spec, hlast]
  show ((hmGet m.key_vec.dropLast.length m.hashmap).map
      fun val => (m.key_vec.getLast hne, val),
    (⟨hmErase m.key_vec.dropLast.length m.hashmap,
      m.key_vec.dropLast⟩ : StableHashMap K V)) = _
  rw [List.length_dropLast, hv]
  rfl

theorem get_spec (m : StableHashMap K V) (idx : Nat) :
    m.get idx = (m.key_vec.get? idx).bind fun key =>
      (hmGet idx m.hashmap).map fun v => (key, v) := by
  show (m.key_vec.get? idx).bind (fun key =>
    (hmGetKeyValue idx m.hashmap).map fun kv => (key, kv.2)) = _
  rw [hmGetKeyValue_eq]
  cases hk : m.key_vec.get? idx with
  | none => rfl
  | some key =>
      cases hg : hmGet idx m.hashmap with
      | none => rfl
      | some v => rfl

theorem get_mut_write_set {m : StableHashMap K V} (hwf : m.WF) {i : Nat}
    (hi : i < m.key_vec.length) (v : V) :
    m.get_mut_write i v =
      { m with hashmap := hmInsert i v m.hashmap } := by
  have hk : (m.key_vec.get? i).isSome := (get?_isSome_iff _ _).mpr hi
  have hg : (hmGet i m.hashmap).isSome := (hwf.hmGet_isSome i).mpr hi
  obtain ⟨key, hkey⟩ := Option.isSome_iff_exists.mp hk
  obtain ⟨oldv, holdv⟩ := Option.isSome_iff_exists.mp hg
  rw [get_mut_write_spec, hkey, holdv]

end StableHashMap

/-! ### The claims -/

open StableHashMap

/-- C1: for every sequence of `push (k0,v0) ... (kn-1,vn-1)` calls
starting from an empty container, consuming iteration via `into_iter`
yields exactly the pairs `(k0,v0), ..., (kn-1,vn-1)` in that order. -/
theorem claim_C1_into_iter_order (ps : List (K × V)) :
    into_list (push_list (new : StableHashMap K V) ps) = ps := by
  rw [push_list_eq_canonical, into_list_canonical]

/-- C2: the empty container satisfies the consistency invariant, every
public operation (push, pop, writes through `get_mut` and
`get_mut_by_key` handles, bulk construction; `get`, `get_by_key` do not
change state) preserves it, and under it the number of entries of the
lookup index equals the length of the key sequence while the index's key
set is exactly the slots `0 .. length - 1`. -/
theorem claim_C2_invariant [DecidableEq K] :
    ((new : StableHashMap K V).WF) ∧
    (∀ m : StableHashMap K V, m.WF → ∀ k v, (m.push k v).WF) ∧
    (∀ m : StableHashMap K V, m.WF → (m.pop).2.WF) ∧
    (∀ m : StableHashMap K V, m.WF → ∀ i v, (m.get_mut_write i v).WF) ∧
    (∀ m : StableHashMap K V, m.WF → ∀ k v,
      (m.get_mut_by_key_write k v).WF) ∧
    (∀ ps : List (K × V), (from_slice ps).WF ∧ (from_vec ps).WF) ∧
    (∀ m : StableHashMap K V, m.WF →
      m.hashmap.length = m.key_vec.length ∧
      ∀ i, (i ∈ m.hashmap.map Prod.fst ↔ i < m.key_vec.length)) :=
  ⟨WF_new,
   fun _ hwf k v => hwf.push k v,
   fun _ hwf => hwf.pop,
   fun _ hwf i v => hwf.get_mut_write i v,
   fun _ hwf k v => hwf.get_mut_by_key_write k v,
   fun ps => ⟨WF_from_slice ps, WF_from_vec ps⟩,
   fun _ hwf => ⟨hwf.size_eq, fun i => hwf.mem_iff i⟩⟩

/-- C2 witness: a concrete reachable state satisfies the invariant. -/
theorem claim_C2_witness : (((new : StableHashMap Nat Nat).push 3 4).WF) ∧
    ((((new : StableHashMap Nat Nat).push 3 4).pop).2.WF) :=
  ⟨(claim_C2_invariant (K := Nat) (V := Nat)).2.1 new (by decide) 3 4,
   (claim_C2_invariant (K := Nat) (V := Nat)).2.2.1
     ((new : StableHashMap Nat Nat).push 3 4) (by decide)⟩

/-- C3: on any container satisfying the invariant (every reachable
state does), `push (k, v)` immediately followed by `pop` returns
`some (k, v)` and restores exactly the previous state, so every
observable (length, slots, key lookups, iteration) is unchanged. -/
theorem claim_C3_push_pop {m : StableHashMap K V} (hwf : m.WF) (k : K)
    (v : V) : (m.push k v).pop = (some (k, v), m) :=
  pop_push hwf k v

/-- C3 witness: concrete push-then-pop round trip. -/
theorem claim_C3_witness :
    ((new : StableHashMap Nat Nat).push 3 4).pop = (some (3, 4), new) :=
  claim_C3_push_pop (by decide) 3 4

/-- C4: on any nonempty container satisfying the invariant, `pop`
returns `some` of the last key paired with the value stored at the last
slot, and removes the last entry from both substructures; the lookup of
the index entry after the sequence pop cannot return `none` (the
defensive branch is unreachable). -/
theorem claim_C4_pop_removes_last {m : StableHashMap K V} (hwf : m.WF)
    (hne : m.key_vec ≠ []) :
    ∃ k v, m.key_vec.getLast? = some k ∧
      hmGet (m.key_vec.length - 1) m.hashmap = some v ∧
      (m.pop).1 = some (k, v) ∧
      (m.pop).2.key_vec = m.key_vec.dropLast ∧
      (m.pop).2.hashmap = hmErase (m.key_vec.length - 1) m.hashmap := by
  obtain ⟨k, v, h1, h2, h3⟩ := pop_nonempty hwf hne
  exact ⟨k, v, h1, h2, by rw [h3], by rw [h3], by rw [h3]⟩

/-- C4 witness: pop on a concrete one-entry container. -/
theorem claim_C4_witness :
    ∃ k v, ((new : StableHashMap Nat Nat).push 3 4).key_vec.getLast? =
        some k ∧
      hmGet (((new : StableHashMap Nat Nat).push 3 4).key_vec.length - 1)
        ((new : StableHashMap Nat Nat).push 3 4).hashmap = some v ∧
      ((((new : StableHashMap Nat Nat).push 3 4).pop).1 = some (k, v)) ∧
      ((((new : StableHashMap Nat Nat).push 3 4).pop).2.key_vec =
        ((new : StableHashMap Nat Nat).push 3 4).key_vec.dropLast) ∧
      ((((new : StableHashMap Nat Nat).push 3 4).pop).2.hashmap =
        hmErase
          (((new : StableHashMap Nat Nat).push 3 4).key_vec.length - 1)
          ((new : StableHashMap Nat Nat).push 3 4).hashmap) :=
  claim_C4_pop_removes_last (by decide) (by decide)

/-- C5: `get_by_key` returns the payload of the first (lowest-slot)
occurrence of the key in insertion order, or `none` when the key is
absent; after pushing the same key twice with different values it
returns the first occurrence's payload while both occurrences remain
independently retrievable by slot. -/
theorem claim_C5_get_by_key_first [DecidableEq K] (ps : List (K × V))
    (key : K) (k : K) (v1 v2 : V) :
    (push_list (new : StableHashMap K V) ps).get_by_key key =
      (ps.find? fun p => decide (p.1 = key)).map Prod.snd ∧
    (((new : StableHashMap K V).push k v1).push k v2).get_by_key k =
      some v1 ∧
    (((new : StableHashMap K V).push k v1).push k v2).get 0 =
      some (k, v1) ∧
    (((new : StableHashMap K V).push k v1).push k v2).get 1 =
      some (k, v2) := by
  have hdup : ((new : StableHashMap K V).push k v1).push k v2 =
      canonical [(k, v1), (k, v2)] := by
    rw [show ((new : StableHashMap K V).push k v1).push k v2 =
      push_list new [(k, v1), (k, v2)] from rfl, push_list_eq_canonical]
  refine ⟨?_, ?_, ?_, ?_⟩
  · rw [push_list_eq_canonical, get_by_key_canonical]
  · rw [hdup, get_by_key_canonical]
    rw [List.find?_cons_of_pos _ (by simp)]
    rfl
  · rw [hdup, get_canonical]
    rfl
  · rw [hdup, get_canonical]
    rfl

/-- C6: after `n` pushes from empty, `get i` returns `some` of the
`i`-th inserted pair for `i < n` and `none` for `i >= n` (it equals the
`i`-th element of the pushed list, which exists exactly when `i < n`). -/
theorem claim_C6_slot_addressing (ps : List (K × V)) (i : Nat) :
    (push_list (new : StableHashMap K V) ps).get i = ps.get? i ∧
    ((ps.get? i).isSome ↔ i < ps.length) := by
  constructor
  · rw [push_list_eq_canonical, get_canonical]
  · exact get?_isSome_iff ps i

/-- C7: on the freshly constructed empty container, `pop` returns
`none` and leaves the container unchanged, `get 0` returns `none`, and
`get_by_key k` returns `none` for every key; none of them faults. -/
theorem claim_C7_empty_behavior [DecidableEq K] (k : K) :
    (new : StableHashMap K V).pop = (none, new) ∧
    (new : StableHashMap K V).get 0 = none ∧
    (new : StableHashMap K V).get_by_key k = none :=
  ⟨rfl, rfl, rfl⟩

/-- C8: constructing from an ordered pair list through either bulk
constructor produces a container equal to (hence observably identical
to — same iteration order, same `get` at every slot) the one built by
pushing the same pairs in order from empty. -/
theorem claim_C8_bulk_equivalence (ps : List (K × V)) :
    from_slice ps = push_list (new : StableHashMap K V) ps ∧
    from_vec ps = push_list (new : StableHashMap K V) ps ∧
    into_list (from_slice ps) =
      into_list (push_list (new : StableHashMap K V) ps) ∧
    into_list (from_vec ps) =
      into_list (push_list (new : StableHashMap K V) ps) ∧
    (∀ i, (from_slice ps).get i =
      (push_list (new : StableHashMap K V) ps).get i) ∧
    (∀ i, (from_vec ps).get i =
      (push_list (new : StableHashMap K V) ps).get i) := by
  have h1 : from_slice ps = push_list (new : StableHashMap K V) ps := by
    rw [from_slice_eq_canonical, push_list_eq_canonical]
  have h2 : from_vec ps = push_list (new : StableHashMap K V) ps := by
    rw [from_vec_eq_canonical, push_list_eq_canonical]
  exact ⟨h1, h2, by rw [h1], by rw [h2],
    fun i => by rw [h1], fun i => by rw [h2]⟩

/-- C9: on any container satisfying the invariant and any in-bounds
slot `i`, writing a new value through the `get_mut i` handle is visible
in a subsequent `get i` (which returns the slot's key with the new
value), and every other slot is unchanged. -/
theorem claim_C9_mutation_visibility {m : StableHashMap K V} (hwf : m.WF)
    {i : Nat} (hi : i < m.key_vec.length) (v : V) :
    (∃ k, m.key_vec.get? i = some k ∧
      (m.get_mut_write i v).get i = some (k, v)) ∧
    ∀ j, j ≠ i → (m.get_mut_write i v).get j = m.get j := by
  rw [get_mut_write_set hwf hi v]
  have hk : (m.key_vec.get? i).isSome := (get?_isSome_iff _ _).mpr hi
  obtain ⟨key, hkey⟩ := Option.isSome_iff_exists.mp hk
  constructor
  · refine ⟨key, hkey, ?_⟩
    rw [get_spec]
    show (m.key_vec.get? i).bind (fun key =>
      (hmGet i (hmInsert i v m.hashmap)).map fun v' => (key, v')) = _
    rw [hkey, hmGet_insert_self]
    rfl
  · intro j hj
    rw [get_spec, get_spec]
    show (m.key_vec.get? j).bind (fun key =>
      (hmGet j (hmInsert i v m.hashmap)).map fun v' => (key, v')) = _
    rw [hmGet_insert_ne hj v]

/-- C9 witness: concrete mutation through the slot-0 handle. -/
theorem claim_C9_witness :
    (∃ k, ((new : StableHashMap Nat Nat).push 3 4).key_vec.get? 0 =
        some k ∧
      (((new : StableHashMap Nat Nat).push 3 4).get_mut_write 0 9).get 0 =
        some (k, 9)) ∧
    ∀ j, j ≠ 0 →
      (((new : StableHashMap Nat Nat).push 3 4).get_mut_write 0 9).get j =
        ((new : StableHashMap Nat Nat).push 3 4).get j :=
  claim_C9_mutation_visibility (by decide) (by decide) 9

/-- C10: on any container with `n` entries satisfying the invariant,
the consuming iterator's `j`-th `next` call happens in state
`(container, j)` and yields `some` exactly when `j < n`; in particular
every call past the `n`-th returns `none`, so the iterator is fused. -/
theorem claim_C10_iterator_fused {m : StableHashMap K V} (hwf : m.WF)
    (j : Nat) :
    iter_steps (into_iter m) j = ⟨m, j⟩ ∧
    ((StableHashMapIntoIterator.next (iter_steps (into_iter m) j)).1.isSome
      ↔ j < m.key_vec.length) := by
  refine ⟨iter_steps_into_iter m j, ?_⟩
  rw [iter_steps_into_iter m j]
  exact next_isSome_iff hwf j

/-- C10 witness: second `next` call on a one-entry container. -/
theorem claim_C10_witness :
    iter_steps (into_iter ((new : StableHashMap Nat Nat).push 3 4)) 1 =
      ⟨(new : StableHashMap Nat Nat).push 3 4, 1⟩ ∧
    ((StableHashMapIntoIterator.next (iter_steps
        (into_iter ((new : StableHashMap Nat Nat).push 3 4)) 1)).1.isSome
      ↔ 1 < ((new : StableHashMap Nat Nat).push 3 4).key_vec.length) :=
  claim_C10_iterator_fused (by decide) 1

end StableSpec
